import Mathlib

/-!
# Huffman + LSB-steganography codec: shallow embedding and verification

This file embeds the core of the repository's codec in Lean 4:

* the C++ `huffman.cpp` program (frequency analysis, priority-queue Huffman
  tree construction with the single-symbol special case, code assignment via
  `buildCode`, the encode loop `encoded += codes[c]`, and the greedy decode
  loop with its empty-bits / empty-code-map guards and the incomplete-code
  warning), and
* the LSB bit channel (`embed`/`extract` with a 24-bit big-endian length
  header), which is described by the design document; its Python
  implementation is not part of the sources available here, so it is
  modelled from the spec.

Symbols (C++ `char`) are modelled as `Nat`; bits ('0'/'1' characters in the
C++ code strings) as `Bool` with `false` = '0' and `true` = '1'.
-/

/-- Error conditions of the codec, one per distinct `cerr`+`return 1` exit of
`huffman.cpp` relevant to the claims: empty input text, empty bitstring to
decode, and a missing/empty reverse code map. -/
inductive CodecError : Type where
  | emptyInput : CodecError
  | emptyBits : CodecError
  | missingCodeTable : CodecError
deriving DecidableEq

/-- A Huffman tree node, mirroring the C++ `struct Node { char ch; int freq;
Node *left, *right; }`.  A null pointer is `nil`; `node ch freq l r` is an
allocated node. -/
inductive HTree : Type where
  | nil : HTree
  | node (ch : Nat) (freq : Nat) (left : HTree) (right : HTree) : HTree
deriving DecidableEq

/-- The frequency stored in a node (`0` for the null tree; never consulted on
null trees by the C++ code). -/
def hfreq : HTree → Nat
  | .nil => 0
  | .node _ f _ _ => f

/-- One step of the frequency loop `freq[c]++`: the association list keyed by
symbol, in first-occurrence order (a deterministic refinement of the C++
`unordered_map` iteration order). -/
def bump : List (Nat × Nat) → Nat → List (Nat × Nat)
  | [], c => [(c, 1)]
  | (c', f) :: rest, c =>
      if c = c' then (c', f + 1) :: rest else (c', f) :: bump rest c

/-- Frequency analysis: `for (char c : text) freq[c]++`. -/
def freqOf (text : List Nat) : List (Nat × Nat) :=
  text.foldl bump []

/-- The initial priority-queue contents: one leaf per distinct symbol
(`pq.push(new Node(c, f))`). -/
def initPQ (freq : List (Nat × Nat)) : List HTree :=
  freq.map (fun p => HTree.node p.1 p.2 .nil .nil)

/-- The single-character special case: if the queue holds exactly one node,
wrap it as the left child of a fresh internal root (`Node('\0', f)` with
`root->left = single`). -/
def singleAdjust (pq : List HTree) : List HTree :=
  match pq with
  | [t] => [HTree.node 0 (hfreq t) t .nil]
  | _ => pq

/-- `pq.top(); pq.pop()` on the min-heap ordered by `freq` (comparator
`a->freq > b->freq`): returns a minimum-frequency element and the remaining
queue.  Ties go to the earliest element, a deterministic refinement of the
unspecified `std::priority_queue` tie-break. -/
def popMin : List HTree → Option (HTree × List HTree)
  | [] => none
  | t :: ts =>
      match popMin ts with
      | some (m, rest) =>
          if hfreq t ≤ hfreq m then some (t, ts) else some (m, t :: rest)
      | none => some (t, [])

/-- The merge loop `while (pq.size() > 1) { left = pop; right = pop;
push(Node('\0', left->freq + right->freq, left, right)) }`, fuelled by an
iteration bound (the queue shrinks by one per iteration, so any fuel
`≥ pq.length` runs the loop to completion). -/
def mergeLoop : Nat → List HTree → List HTree
  | 0, pq => pq
  | fuel + 1, pq =>
      match popMin pq with
      | none => pq
      | some (t1, rest1) =>
          match popMin rest1 with
          | none => pq
          | some (t2, rest2) =>
              mergeLoop fuel (HTree.node 0 (hfreq t1 + hfreq t2) t1 t2 :: rest2)

/-- Huffman tree construction from a frequency map: initial queue, the
single-node adjustment, the merge loop, then `root = pq.top()`. -/
def buildTree (freq : List (Nat × Nat)) : HTree :=
  let pq := singleAdjust (initPQ freq)
  match mergeLoop pq.length pq with
  | t :: _ => t
  | [] => .nil

/-- Code assignment, mirroring the C++ `buildCode`: a null tree contributes
nothing, a leaf (both children null) receives the accumulated path — or "0"
if the path is empty — and an internal node recurses left with '0' appended
and right with '1' appended.  The resulting association list is in traversal
order. -/
def buildCode : HTree → List Bool → List (Nat × List Bool)
  | .nil, _ => []
  | .node c _ .nil .nil, str => [(c, if str = [] then [false] else str)]
  | .node _ _ l r, str =>
      buildCode l (str ++ [false]) ++ buildCode r (str ++ [true])

/-- Association-list lookup of a symbol's code (the read part of the C++
`codes[c]`). -/
def lookupCode : List (Nat × List Bool) → Nat → Option (List Bool)
  | [], _ => none
  | (c', s) :: rest, c => if c = c' then some s else lookupCode rest c

/-- The encode loop `for (char c : text) encoded += codes[c]`, including the
`unordered_map::operator[]` side effect: a symbol with no entry is inserted
with the default (empty) code and contributes no bits.  Returns the encoded
bitstring together with the final code map. -/
def encodeLoop : List Nat → List (Nat × List Bool) → List Bool × List (Nat × List Bool)
  | [], codes => ([], codes)
  | c :: cs, codes =>
      match lookupCode codes c with
      | some s =>
          let r := encodeLoop cs codes
          (s ++ r.1, r.2)
      | none => encodeLoop cs (codes ++ [(c, [])])

/-- The whole `encode` mode of `huffman.cpp`: reject empty text, build the
frequency map, the tree, and the code table, then run the encode loop.
Returns the encoded bitstring and the code map the program prints. -/
def huffmanEncode (text : List Nat) :
    Except CodecError (List Bool × List (Nat × List Bool)) :=
  if text = [] then .error .emptyInput
  else
    let codes := buildCode (buildTree (freqOf text)) []
    let r := encodeLoop text codes
    .ok (r.1, r.2)

/-- Lookup in the reverse code map (`revCodes.find(current)`), keyed by code
string. -/
def revLookup : List (List Bool × Nat) → List Bool → Option Nat
  | [], _ => none
  | (s, c) :: rest, q => if q = s then some c else revLookup rest q

/-- The reverse code table the decoder is fed (`revCodes[code] = ch` over the
printed code map). -/
def revTable (codes : List (Nat × List Bool)) : List (List Bool × Nat) :=
  codes.map (fun p => (p.2, p.1))

/-- The greedy decode loop: accumulate bits into `current`; whenever
`current` is a key of the reverse map, emit its symbol and reset.  Returns
the decoded symbols and the final (possibly dangling) `current`. -/
def decodeGo (R : List (List Bool × Nat)) : List Bool → List Bool → List Nat × List Bool
  | [], current => ([], current)
  | b :: bs, current =>
      match revLookup R (current ++ [b]) with
      | some ch =>
          let r := decodeGo R bs []
          (ch :: r.1, r.2)
      | none => decodeGo R bs (current ++ [b])

/-- The whole `decode` mode of `huffman.cpp`: reject an empty bitstring
(first guard), then a missing/empty code map (second guard), then run the
greedy loop.  The boolean result is the "Incomplete code at end" warning
flag: `true` iff a non-empty candidate was left dangling. -/
def huffmanDecode (bits : List Bool) (revCodes : List (List Bool × Nat)) :
    Except CodecError (List Nat × Bool) :=
  if bits = [] then .error .emptyBits
  else if revCodes = [] then .error .missingCodeTable
  else
    let r := decodeGo revCodes bits []
    .ok (r.1, !r.2.isEmpty)

/-! ## BitChannel (modelled from the spec)

The LSB embedding/extraction implementation (the Python side) is not among
the sources available here; the definitions below are modelled from the
spec. -/

/-- A pixel: three 8-bit channels (R, G, B). -/
abbrev Pixel := Nat × Nat × Nat

/-- Error conditions of the bit channel: not enough LSB slots, or a length
header inconsistent with the buffer size. -/
inductive StegoError : Type where
  | capacity : StegoError
  | corruptHeader : StegoError
deriving DecidableEq

/-- Overwrite the least-significant bit of a channel value, leaving the other
bits untouched. -/
def setLSB (v : Nat) (b : Bool) : Nat :=
  2 * (v / 2) + (if b then 1 else 0)

/-- The least-significant bit of a channel value. -/
def lsb (v : Nat) : Bool :=
  v % 2 = 1

/-- Modelled from the spec: write a bitstring into the channel LSBs, one bit
per channel in R,G,B order and pixel order; pixels beyond the used slots are
left unmodified. -/
def writeBits : List Pixel → List Bool → List Pixel
  | ps, [] => ps
  | [], _ => []
  | p :: ps, [b1] => (setLSB p.1 b1, p.2.1, p.2.2) :: ps
  | p :: ps, [b1, b2] => (setLSB p.1 b1, setLSB p.2.1 b2, p.2.2) :: ps
  | p :: ps, b1 :: b2 :: b3 :: rest =>
      (setLSB p.1 b1, setLSB p.2.1 b2, setLSB p.2.2 b3) :: writeBits ps rest

/-- The sequence of channel LSBs of a buffer, in embedding order. -/
def channelBits (ps : List Pixel) : List Bool :=
  ps.flatMap (fun p => [lsb p.1, lsb p.2.1, lsb p.2.2])

/-- A natural number as a `w`-bit big-endian bitstring (the low `w` bits). -/
def natToBits : Nat → Nat → List Bool
  | 0, _ => []
  | w + 1, n => natToBits w (n / 2) ++ [decide (n % 2 = 1)]

/-- A big-endian bitstring read back as a natural number. -/
def bitsToNat (bs : List Bool) : Nat :=
  bs.foldl (fun n b => 2 * n + (if b then 1 else 0)) 0

/-- Modelled from the spec: `embed(pixelBuffer, bitstring)` computes total
bits = 24 + payload length, fails with `CapacityError` when the total
exceeds `3 × pixelCount`, and otherwise writes the 24-bit big-endian length
header followed by the payload into the channel LSBs. -/
def embed (buf : List Pixel) (bits : List Bool) : Except StegoError (List Pixel) :=
  if 3 * buf.length < 24 + bits.length then .error .capacity
  else .ok (writeBits buf (natToBits 24 bits.length ++ bits))

/-- Modelled from the spec: `extract(pixelBuffer)` reads the first 24 LSB
slots as the payload length, fails with `CorruptHeaderError` when the
declared length exceeds the remaining slots, and otherwise returns exactly
that many subsequent bits. -/
def extract (buf : List Pixel) : Except StegoError (List Bool) :=
  let all := channelBits buf
  let len := bitsToNat (all.take 24)
  if all.length - 24 < len then .error .corruptHeader
  else .ok ((all.drop 24).take len)


/-- The leaf symbols of a tree, in left-to-right traversal order (matching
the case analysis of `buildCode`). -/
def leaves : HTree → List Nat
  | .nil => []
  | .node c _ .nil .nil => [c]
  | .node _ _ l r => leaves l ++ leaves r

/-- Two bitstrings, neither of which is a prefix of the other. -/
def Incomp (s t : List Bool) : Prop :=
  ¬ s <+: t ∧ ¬ t <+: s

/-! ## Structural lemmas about code assignment -/

theorem incomp_symm : Symmetric Incomp :=
  fun _ _ h => ⟨h.2, h.1⟩

theorem buildCode_node (ch f : Nat) (l r : HTree)
    (h : l ≠ HTree.nil ∨ r ≠ HTree.nil) (p : List Bool) :
    buildCode (.node ch f l r) p =
      buildCode l (p ++ [false]) ++ buildCode r (p ++ [true]) := by
  cases l with
  | nil =>
    cases r with
    | nil => rcases h with h | h <;> exact absurd rfl h
    | node c2 f2 l2 r2 => rfl
  | node c1 f1 l1 r1 => rfl

theorem leaves_node (ch f : Nat) (l r : HTree)
    (h : l ≠ HTree.nil ∨ r ≠ HTree.nil) :
    leaves (.node ch f l r) = leaves l ++ leaves r := by
  cases l with
  | nil =>
    cases r with
    | nil => rcases h with h | h <;> exact absurd rfl h
    | node c2 f2 l2 r2 => rfl
  | node c1 f1 l1 r1 => rfl

/-- Every code assigned under accumulated path `p` extends `p` and is
non-empty. -/
theorem buildCode_isPre (t : HTree) :
    ∀ p c s, (c, s) ∈ buildCode t p → p <+: s ∧ s ≠ [] := by
  induction t with
  | nil => intro p c s h; simp [buildCode] at h
  | node ch f l r ihl ihr =>
    intro p c s h
    by_cases hlr : l = HTree.nil ∧ r = HTree.nil
    · obtain ⟨hl, hr⟩ := hlr
      subst hl; subst hr
      simp only [buildCode, List.mem_singleton, Prod.mk.injEq] at h
      obtain ⟨-, hs⟩ := h
      by_cases hp : p = []
      · subst hp
        simp at hs
        subst hs
        exact ⟨List.nil_prefix, by simp⟩
      · simp [hp] at hs
        subst hs
        exact ⟨List.prefix_refl _, hp⟩
    · have hor : l ≠ HTree.nil ∨ r ≠ HTree.nil := by tauto
      rw [buildCode_node ch f l r hor] at h
      rw [List.mem_append] at h
      rcases h with h | h
      · obtain ⟨hpre, hne⟩ := ihl _ _ _ h
        exact ⟨(List.prefix_append p [false]).trans hpre, hne⟩
      · obtain ⟨hpre, hne⟩ := ihr _ _ _ h
        exact ⟨(List.prefix_append p [true]).trans hpre, hne⟩

/-- The code strings produced from any tree are pairwise prefix-incomparable:
codes from the left subtree extend `p ++ [0]`, codes from the right subtree
extend `p ++ [1]`, and a common extension would force `0 = 1`. -/
theorem buildCode_pairwise (t : HTree) :
    ∀ p, List.Pairwise Incomp ((buildCode t p).map Prod.snd) := by
  induction t with
  | nil => intro p; simp [buildCode]
  | node ch f l r ihl ihr =>
    intro p
    by_cases hlr : l = HTree.nil ∧ r = HTree.nil
    · obtain ⟨hl, hr⟩ := hlr
      subst hl; subst hr
      simp [buildCode]
    · have hor : l ≠ HTree.nil ∨ r ≠ HTree.nil := by tauto
      rw [buildCode_node ch f l r hor, List.map_append, List.pairwise_append]
      refine ⟨ihl _, ihr _, ?_⟩
      intro s1 h1 s2 h2
      obtain ⟨⟨c1, s1'⟩, hm1, hs1⟩ := List.mem_map.mp h1
      obtain ⟨⟨c2, s2'⟩, hm2, hs2⟩ := List.mem_map.mp h2
      simp only at hs1 hs2
      subst hs1; subst hs2
      have hp1 := (buildCode_isPre l (p ++ [false]) c1 s1' hm1).1
      have hp2 := (buildCode_isPre r (p ++ [true]) c2 s2' hm2).1
      constructor
      · intro hcon
        have h1' : p ++ [false] <+: s2' := hp1.trans hcon
        have heq : p ++ [false] = p ++ [true] :=
          (List.prefix_of_prefix_length_le h1' hp2
            (by simp)).sublist.eq_of_length (by simp)
        simp at heq
      · intro hcon
        have h2' : p ++ [true] <+: s1' := hp2.trans hcon
        have heq : p ++ [true] = p ++ [false] :=
          (List.prefix_of_prefix_length_le h2' hp1
            (by simp)).sublist.eq_of_length (by simp)
        simp at heq

/-- The symbols of the code table are the tree's leaves, in order. -/
theorem buildCode_keys (t : HTree) :
    ∀ p, (buildCode t p).map Prod.fst = leaves t := by
  induction t with
  | nil => intro p; simp [buildCode, leaves]
  | node ch f l r ihl ihr =>
    intro p
    by_cases hlr : l = HTree.nil ∧ r = HTree.nil
    · obtain ⟨hl, hr⟩ := hlr
      subst hl; subst hr
      simp [buildCode, leaves]
    · have hor : l ≠ HTree.nil ∨ r ≠ HTree.nil := by tauto
      rw [buildCode_node ch f l r hor, leaves_node ch f l r hor,
        List.map_append, ihl, ihr]

/-! ## The priority queue and the merge loop -/

theorem popMin_eq_none {pq : List HTree} : popMin pq = none ↔ pq = [] := by
  cases pq with
  | nil => simp [popMin]
  | cons t ts =>
    simp only [popMin]
    cases h : popMin ts with
    | none => simp
    | some pr =>
      obtain ⟨m, rest⟩ := pr
      by_cases hle : hfreq t ≤ hfreq m <;> simp [hle]

/-- Popping the minimum returns an element together with the rest of the
queue, up to permutation. -/
theorem popMin_perm :
    ∀ (pq : List HTree) (t : HTree) (rest : List HTree),
      popMin pq = some (t, rest) → pq.Perm (t :: rest) := by
  intro pq
  induction pq with
  | nil => intro t rest h; simp [popMin] at h
  | cons a ts ih =>
    intro t rest h
    simp only [popMin] at h
    cases hts : popMin ts with
    | none =>
      rw [hts] at h
      have hnil : ts = [] := popMin_eq_none.mp hts
      simp only [Option.some.injEq, Prod.mk.injEq] at h
      obtain ⟨rfl, rfl⟩ := h
      subst hnil
      exact List.Perm.refl _
    | some pr =>
      obtain ⟨m, rest'⟩ := pr
      rw [hts] at h
      by_cases hle : hfreq a ≤ hfreq m
      · simp only [hle, if_true, Option.some.injEq, Prod.mk.injEq] at h
        obtain ⟨rfl, rfl⟩ := h
        exact List.Perm.refl _
      · simp only [hle, if_false, Option.some.injEq, Prod.mk.injEq] at h
        obtain ⟨rfl, rfl⟩ := h
        exact ((ih m rest' hts).cons a).trans (List.Perm.swap m a rest')

/-- Running the merge loop with sufficient fuel on a non-empty queue of
non-null trees yields a single tree carrying exactly the leaves of the
queue (up to permutation). -/
theorem mergeLoop_result :
    ∀ (fuel : Nat) (pq : List HTree),
      pq ≠ [] → pq.length ≤ fuel + 1 → (∀ t ∈ pq, t ≠ HTree.nil) →
      ∃ t, mergeLoop fuel pq = [t] ∧
        (leaves t).Perm (pq.flatMap leaves) := by
  intro fuel
  induction fuel with
  | zero =>
    intro pq hne hlen _
    match pq, hne with
    | [t], _ =>
      exact ⟨t, rfl, by simp⟩
    | t1 :: t2 :: ts, _ =>
      simp at hlen
  | succ fuel ih =>
    intro pq hne hlen hnn
    cases h1 : popMin pq with
    | none => exact absurd (popMin_eq_none.mp h1) hne
    | some pr1 =>
      obtain ⟨t1, rest1⟩ := pr1
      cases h2 : popMin rest1 with
      | none =>
        have hr : rest1 = [] := popMin_eq_none.mp h2
        subst hr
        have hperm := popMin_perm pq t1 [] h1
        have hpq : pq = [t1] := List.perm_singleton.mp hperm
        subst hpq
        refine ⟨t1, ?_, by simp⟩
        simp [mergeLoop, h1, h2]
      | some pr2 =>
        obtain ⟨t2, rest2⟩ := pr2
        have hperm1 := popMin_perm pq t1 rest1 h1
        have hperm2 := popMin_perm rest1 t2 rest2 h2
        have hstep : mergeLoop (fuel + 1) pq =
            mergeLoop fuel (HTree.node 0 (hfreq t1 + hfreq t2) t1 t2 :: rest2) := by
          simp [mergeLoop, h1, h2]
        have hmem1 : t1 ∈ pq := hperm1.mem_iff.mpr (by simp)
        have hmem2 : t2 ∈ pq := by
          have : t2 ∈ rest1 := hperm2.mem_iff.mpr (by simp)
          exact hperm1.mem_iff.mpr (by simp [this])
        have ht1 : t1 ≠ HTree.nil := hnn t1 hmem1
        have hnn' : ∀ t ∈ HTree.node 0 (hfreq t1 + hfreq t2) t1 t2 :: rest2,
            t ≠ HTree.nil := by
          intro t ht
          rcases List.mem_cons.mp ht with rfl | ht
          · intro hcon; cases hcon
          · have : t ∈ rest1 := hperm2.mem_iff.mpr (by simp [ht])
            exact hnn t (hperm1.mem_iff.mpr (by simp [this]))
        have hlen1 : pq.length = rest1.length + 1 := by
          simpa using hperm1.length_eq
        have hlen2 : rest1.length = rest2.length + 1 := by
          simpa using hperm2.length_eq
        have hlen' : (HTree.node 0 (hfreq t1 + hfreq t2) t1 t2 :: rest2).length
            ≤ fuel + 1 := by
          simp only [List.length_cons]
          omega
        obtain ⟨t, heq, hpermL⟩ := ih _ (by simp) hlen' hnn'
        refine ⟨t, by rw [hstep, heq], ?_⟩
        have hleavesm : leaves (HTree.node 0 (hfreq t1 + hfreq t2) t1 t2) =
            leaves t1 ++ leaves t2 := leaves_node _ _ _ _ (Or.inl ht1)
        have p1 : (pq.flatMap leaves).Perm (leaves t1 ++ rest1.flatMap leaves) := by
          simpa using hperm1.flatMap_right leaves
        have p2 : (rest1.flatMap leaves).Perm
            (leaves t2 ++ rest2.flatMap leaves) := by
          simpa using hperm2.flatMap_right leaves
        have e1 : (HTree.node 0 (hfreq t1 + hfreq t2) t1 t2 :: rest2).flatMap leaves
            = leaves t1 ++ (leaves t2 ++ rest2.flatMap leaves) := by
          simp [hleavesm]
        refine hpermL.trans ?_
        rw [e1]
        exact (((List.Perm.refl (leaves t1)).append p2.symm).trans p1.symm)

/-! ## From frequency maps to trees -/

theorem initPQ_flatMap (freq : List (Nat × Nat)) :
    (initPQ freq).flatMap leaves = freq.map Prod.fst := by
  induction freq with
  | nil => rfl
  | cons p rest ih => simp [initPQ, leaves] at ih ⊢; exact ih

theorem initPQ_ne_nil (freq : List (Nat × Nat)) :
    ∀ t ∈ initPQ freq, t ≠ HTree.nil := by
  intro t ht
  obtain ⟨p, -, rfl⟩ := List.mem_map.mp ht
  intro hcon; cases hcon

theorem singleAdjust_flatMap (pq : List HTree)
    (h : ∀ t ∈ pq, t ≠ HTree.nil) :
    (singleAdjust pq).flatMap leaves = pq.flatMap leaves := by
  match pq with
  | [] => rfl
  | [t] =>
    have ht : t ≠ HTree.nil := h t (by simp)
    simp [singleAdjust, leaves_node 0 (hfreq t) t .nil (Or.inl ht), leaves]
  | t1 :: t2 :: ts => rfl

theorem singleAdjust_ne_nil (pq : List HTree)
    (h : ∀ t ∈ pq, t ≠ HTree.nil) :
    ∀ t ∈ singleAdjust pq, t ≠ HTree.nil := by
  match pq with
  | [] => exact h
  | [t] =>
    intro u hu
    simp [singleAdjust] at hu
    subst hu
    intro hcon; cases hcon
  | t1 :: t2 :: ts => exact h

theorem singleAdjust_length (pq : List HTree) :
    (singleAdjust pq).length = pq.length := by
  match pq with
  | [] => rfl
  | [t] => rfl
  | t1 :: t2 :: ts => rfl

/-- The leaves of the built tree are exactly the keys of the frequency map,
up to permutation. -/
theorem buildTree_leaves (freq : List (Nat × Nat)) (h : freq ≠ []) :
    (leaves (buildTree freq)).Perm (freq.map Prod.fst) := by
  have hpqne : singleAdjust (initPQ freq) ≠ [] := by
    have : initPQ freq ≠ [] := by
      simpa [initPQ] using h
    match hpq : initPQ freq, this with
    | [t], _ => simp [singleAdjust]
    | t1 :: t2 :: ts, _ => simp [singleAdjust]
  have hnn := singleAdjust_ne_nil (initPQ freq) (initPQ_ne_nil freq)
  obtain ⟨t, heq, hperm⟩ := mergeLoop_result (singleAdjust (initPQ freq)).length
    (singleAdjust (initPQ freq)) hpqne (by omega) hnn
  have hbt : buildTree freq = t := by
    unfold buildTree
    simp only [heq]
  rw [hbt]
  refine hperm.trans ?_
  rw [singleAdjust_flatMap (initPQ freq) (initPQ_ne_nil freq), initPQ_flatMap]

/-! ## The frequency map -/

theorem bump_keys (m : List (Nat × Nat)) (c : Nat) :
    (bump m c).map Prod.fst =
      if c ∈ m.map Prod.fst then m.map Prod.fst else m.map Prod.fst ++ [c] := by
  induction m with
  | nil => simp [bump]
  | cons p rest ih =>
    obtain ⟨c', f⟩ := p
    by_cases hc : c = c'
    · subst hc
      simp [bump]
    · simp only [bump, if_neg hc, List.map_cons]
      rw [ih]
      by_cases hmem : c ∈ rest.map Prod.fst
      · simp [hmem, hc]
      · simp [hmem, hc, Ne.symm]

theorem bump_keys_nodup (m : List (Nat × Nat)) (c : Nat)
    (h : (m.map Prod.fst).Nodup) : ((bump m c).map Prod.fst).Nodup := by
  rw [bump_keys]
  by_cases hmem : c ∈ m.map Prod.fst
  · simpa [hmem] using h
  · simp only [hmem, if_false]
    rw [List.nodup_append]
    exact ⟨h, List.nodup_singleton c, by simpa using hmem⟩

theorem bump_keys_mem (m : List (Nat × Nat)) (c d : Nat) :
    d ∈ (bump m c).map Prod.fst ↔ d ∈ m.map Prod.fst ∨ d = c := by
  rw [bump_keys]
  by_cases hmem : c ∈ m.map Prod.fst
  · simp only [hmem, if_true]
    constructor
    · exact Or.inl
    · rintro (h | rfl)
      · exact h
      · exact hmem
  · simp [hmem]

theorem foldl_bump_keys_nodup :
    ∀ (text : List Nat) (m : List (Nat × Nat)),
      (m.map Prod.fst).Nodup → ((text.foldl bump m).map Prod.fst).Nodup := by
  intro text
  induction text with
  | nil => intro m h; exact h
  | cons c cs ih =>
    intro m h
    exact ih (bump m c) (bump_keys_nodup m c h)

theorem foldl_bump_keys_mem :
    ∀ (text : List Nat) (m : List (Nat × Nat)) (d : Nat),
      d ∈ (text.foldl bump m).map Prod.fst ↔ d ∈ m.map Prod.fst ∨ d ∈ text := by
  intro text
  induction text with
  | nil => intro m d; simp
  | cons c cs ih =>
    intro m d
    rw [List.foldl_cons, ih, bump_keys_mem]
    simp [or_assoc]

theorem freqOf_keys_nodup (text : List Nat) :
    ((freqOf text).map Prod.fst).Nodup :=
  foldl_bump_keys_nodup text [] (by simp)

theorem freqOf_keys_mem (text : List Nat) (d : Nat) :
    d ∈ (freqOf text).map Prod.fst ↔ d ∈ text := by
  rw [freqOf, foldl_bump_keys_mem]
  simp

theorem freqOf_ne_nil (text : List Nat) (h : text ≠ []) :
    freqOf text ≠ [] := by
  match text, h with
  | c :: cs, _ =>
    intro hcon
    have : c ∈ (freqOf (c :: cs)).map Prod.fst := by
      rw [freqOf_keys_mem]
      simp
    rw [hcon] at this
    simp at this

/-! ## Lookup and the encode loop -/

theorem lookupCode_mem :
    ∀ (codes : List (Nat × List Bool)) (c : Nat) (s : List Bool),
      lookupCode codes c = some s → (c, s) ∈ codes := by
  intro codes
  induction codes with
  | nil => intro c s h; simp [lookupCode] at h
  | cons p rest ih =>
    intro c s h
    obtain ⟨c', s'⟩ := p
    simp only [lookupCode] at h
    by_cases hc : c = c'
    · subst hc
      simp at h
      subst h
      simp
    · rw [if_neg hc] at h
      exact List.mem_cons_of_mem _ (ih c s h)

theorem lookupCode_isSome_of_mem_keys :
    ∀ (codes : List (Nat × List Bool)) (c : Nat),
      c ∈ codes.map Prod.fst → ∃ s, lookupCode codes c = some s := by
  intro codes
  induction codes with
  | nil => intro c h; simp at h
  | cons p rest ih =>
    intro c h
    obtain ⟨c', s'⟩ := p
    by_cases hc : c = c'
    · subst hc
      exact ⟨s', by simp [lookupCode]⟩
    · simp only [List.map_cons, List.mem_cons] at h
      rcases h with h | h
      · exact absurd h hc
      · obtain ⟨s, hs⟩ := ih c h
        exact ⟨s, by simp [lookupCode, hc, hs]⟩

theorem revLookup_mem :
    ∀ (R : List (List Bool × Nat)) (q : List Bool) (c : Nat),
      revLookup R q = some c → (q, c) ∈ R := by
  intro R
  induction R with
  | nil => intro q c h; simp [revLookup] at h
  | cons p rest ih =>
    intro q c h
    obtain ⟨s', c'⟩ := p
    simp only [revLookup] at h
    by_cases hq : q = s'
    · subst hq
      simp at h
      subst h
      simp
    · rw [if_neg hq] at h
      exact List.mem_cons_of_mem _ (ih q c h)

/-- Looking up a code string in the reverse table finds the right symbol,
provided the code strings are distinct. -/
theorem revLookup_revTable :
    ∀ (codes : List (Nat × List Bool)) (c : Nat) (s : List Bool),
      (codes.map Prod.snd).Nodup → (c, s) ∈ codes →
      revLookup (revTable codes) s = some c := by
  intro codes
  induction codes with
  | nil => intro c s _ h; simp at h
  | cons p rest ih =>
    intro c s hnd hmem
    obtain ⟨c0, s0⟩ := p
    simp only [List.map_cons, List.nodup_cons] at hnd
    obtain ⟨hs0, hnd⟩ := hnd
    rcases List.mem_cons.mp hmem with heq | hmem'
    · obtain ⟨rfl, rfl⟩ := Prod.mk.injEq .. ▸ heq
      simp [revTable, revLookup]
    · have hsne : s ≠ s0 := by
        intro hcon
        subst hcon
        exact hs0 (List.mem_map.mpr ⟨(c, s), hmem', rfl⟩)
      simp only [revTable, List.map_cons, revLookup, if_neg hsne]
      exact ih c s hnd hmem'

theorem revLookup_none_of_not_mem :
    ∀ (R : List (List Bool × Nat)) (q : List Bool),
      q ∉ R.map Prod.fst → revLookup R q = none := by
  intro R q h
  cases hr : revLookup R q with
  | none => rfl
  | some c =>
    have := revLookup_mem R q c hr
    exact absurd (List.mem_map.mpr ⟨(q, c), this, rfl⟩) h

theorem revTable_keys (codes : List (Nat × List Bool)) :
    (revTable codes).map Prod.fst = codes.map Prod.snd := by
  simp [revTable]

/-- The `operator[]` insertion of a default (empty) code does not change any
defaulted lookup. -/
theorem lookupCode_append_default :
    ∀ (codes : List (Nat × List Bool)) (c d : Nat),
      (lookupCode (codes ++ [(c, [])]) d).getD [] = (lookupCode codes d).getD [] := by
  intro codes
  induction codes with
  | nil =>
    intro c d
    simp only [List.nil_append, lookupCode]
    by_cases hd : d = c <;> simp [hd]
  | cons p rest ih =>
    intro c d
    obtain ⟨c', s'⟩ := p
    simp only [List.cons_append, lookupCode]
    by_cases hd : d = c' <;> simp [hd, ih]

/-- The bitstring produced by the encode loop: each symbol contributes its
code, or nothing when it has no entry (the claim's `UnknownSymbolError`
never occurs). -/
theorem encodeLoop_fst :
    ∀ (text : List Nat) (codes : List (Nat × List Bool)),
      (encodeLoop text codes).1 =
        text.flatMap (fun c => (lookupCode codes c).getD []) := by
  intro text
  induction text with
  | nil => intro codes; rfl
  | cons c cs ih =>
    intro codes
    simp only [encodeLoop, List.flatMap_cons]
    cases hl : lookupCode codes c with
    | some s => simp [hl, ih]
    | none =>
      simp only [hl, Option.getD_none, List.nil_append]
      rw [ih]
      exact List.flatMap_congr fun d _ => by
        rw [lookupCode_append_default]

/-- When every symbol has an entry, the encode loop performs no insertion:
the final map is the input map. -/
theorem encodeLoop_snd :
    ∀ (text : List Nat) (codes : List (Nat × List Bool)),
      (∀ c ∈ text, ∃ s, lookupCode codes c = some s) →
      (encodeLoop text codes).2 = codes := by
  intro text
  induction text with
  | nil => intro codes _; rfl
  | cons c cs ih =>
    intro codes h
    obtain ⟨s, hs⟩ := h c (by simp)
    simp only [encodeLoop, hs]
    exact ih codes fun d hd => h d (by simp [hd])

/-! ## Greedy decoding of a prefix-free stream -/

theorem decodeGo_cons (R : List (List Bool × Nat)) (b : Bool)
    (bs current : List Bool) :
    decodeGo R (b :: bs) current =
      match revLookup R (current ++ [b]) with
      | some ch => (ch :: (decodeGo R bs []).1, (decodeGo R bs []).2)
      | none => decodeGo R bs (current ++ [b]) := rfl

theorem decodeGo_cons_some (R : List (List Bool × Nat)) (b : Bool)
    (bs current : List Bool) (ch : Nat)
    (h : revLookup R (current ++ [b]) = some ch) :
    decodeGo R (b :: bs) current =
      (ch :: (decodeGo R bs []).1, (decodeGo R bs []).2) := by
  rw [decodeGo_cons, h]

theorem decodeGo_cons_none (R : List (List Bool × Nat)) (b : Bool)
    (bs current : List Bool)
    (h : revLookup R (current ++ [b]) = none) :
    decodeGo R (b :: bs) current = decodeGo R bs (current ++ [b]) := by
  rw [decodeGo_cons, h]

/-- Consuming one codeword: starting from partial candidate `p`, reading the
missing part `s'` of a codeword `s = p ++ s'` none of whose proper non-empty
prefixes is in the table emits exactly the codeword's symbol and continues
fresh. -/
theorem decodeGo_consume_aux (R : List (List Bool × Nat)) (s : List Bool)
    (c : Nat) (rest : List Bool)
    (hfind : revLookup R s = some c)
    (hpre : ∀ q, q <+: s → q ≠ s → q ≠ [] → revLookup R q = none) :
    ∀ (s' p : List Bool), p ++ s' = s → s' ≠ [] →
      decodeGo R (s' ++ rest) p =
        (c :: (decodeGo R rest []).1, (decodeGo R rest []).2) := by
  intro s'
  induction s' with
  | nil => intro p h hne; exact absurd rfl hne
  | cons b bs ih =>
    intro p h hne
    by_cases hbs : bs = []
    · subst hbs
      have hps : p ++ [b] = s := h
      rw [List.cons_append, List.nil_append,
        decodeGo_cons_some R b rest p c (by rw [hps]; exact hfind)]
    · have hqpre : (p ++ [b]) <+: s := by
        rw [← h, List.append_cons]
        exact ⟨bs, by simp⟩
      have hqne : p ++ [b] ≠ s := by
        rw [← h]
        intro hcon
        have h2 : [b] = b :: bs := List.append_inj_right hcon rfl
        have h3 : ([] : List Bool) = bs := (List.cons.injEq .. ▸ h2).2
        exact hbs h3.symm
      have hnone : revLookup R (p ++ [b]) = none :=
        hpre (p ++ [b]) hqpre hqne (by simp)
      rw [List.cons_append, decodeGo_cons_none R b (bs ++ rest) p hnone]
      exact ih (p ++ [b]) (by rw [← h]; simp) hbs

/-- Decoding a concatenation of codewords, each of which is in the table and
has no proper non-empty prefix in the table, recovers exactly the symbol
sequence with no dangling candidate. -/
theorem decodeGo_concat (R : List (List Bool × Nat)) (enc : Nat → List Bool) :
    ∀ (cs : List Nat),
      (∀ c ∈ cs, enc c ≠ [] ∧ revLookup R (enc c) = some c ∧
        ∀ q, q <+: enc c → q ≠ enc c → q ≠ [] → revLookup R q = none) →
      decodeGo R (cs.flatMap enc) [] = (cs, []) := by
  intro cs
  induction cs with
  | nil => intro _; rfl
  | cons c cs ih =>
    intro hgood
    obtain ⟨hne, hfind, hpre⟩ := hgood c (by simp)
    rw [List.flatMap_cons]
    rw [decodeGo_consume_aux R (enc c) c (cs.flatMap enc) hfind hpre (enc c) []
      (by simp) hne]
    rw [ih fun d hd => hgood d (by simp [hd])]

/-! ## Properties of the code table built from a text -/

theorem buildCode_strings_nodup (t : HTree) (p : List Bool) :
    ((buildCode t p).map Prod.snd).Nodup := by
  refine (buildCode_pairwise t p).imp ?_
  intro a b hab hcon
  exact hab.1 (by rw [hcon])

theorem builtCodes_keys_perm (text : List Nat) (h : text ≠ []) :
    ((buildCode (buildTree (freqOf text)) []).map Prod.fst).Perm
      ((freqOf text).map Prod.fst) := by
  rw [buildCode_keys]
  exact buildTree_leaves _ (freqOf_ne_nil text h)

theorem builtCodes_mem_keys (text : List Nat) (h : text ≠ []) (c : Nat)
    (hc : c ∈ text) :
    c ∈ (buildCode (buildTree (freqOf text)) []).map Prod.fst :=
  (builtCodes_keys_perm text h).mem_iff.mpr ((freqOf_keys_mem text c).mpr hc)

/-- Every symbol of the text has a non-empty code in the built table, the
reverse table maps that code back to the symbol, and no proper non-empty
prefix of it is a code: exactly what greedy decoding needs. -/
theorem builtCodes_good (text : List Nat) (h : text ≠ [])
    (codes : List (Nat × List Bool))
    (hcodes : codes = buildCode (buildTree (freqOf text)) []) :
    ∀ c ∈ text,
      (lookupCode codes c).getD [] ≠ [] ∧
      revLookup (revTable codes) ((lookupCode codes c).getD []) = some c ∧
      ∀ q, q <+: (lookupCode codes c).getD [] →
        q ≠ (lookupCode codes c).getD [] → q ≠ [] →
        revLookup (revTable codes) q = none := by
  subst hcodes
  intro c hc
  have hkey : c ∈ (buildCode (buildTree (freqOf text)) []).map Prod.fst :=
    builtCodes_mem_keys text h c hc
  obtain ⟨s, hs⟩ := lookupCode_isSome_of_mem_keys _ c hkey
  have hmem : (c, s) ∈ buildCode (buildTree (freqOf text)) [] :=
    lookupCode_mem _ c s hs
  have hsne : s ≠ [] := (buildCode_isPre _ [] c s hmem).2
  have hnodS := buildCode_strings_nodup (buildTree (freqOf text)) []
  have hrev : revLookup (revTable (buildCode (buildTree (freqOf text)) [])) s
      = some c := revLookup_revTable _ c s hnodS hmem
  rw [hs]
  simp only [Option.getD_some]
  refine ⟨hsne, hrev, ?_⟩
  intro q hq hqs hqne
  apply revLookup_none_of_not_mem
  rw [revTable_keys]
  intro hqmem
  have hsmem : s ∈ (buildCode (buildTree (freqOf text)) []).map Prod.snd :=
    List.mem_map.mpr ⟨(c, s), hmem, rfl⟩
  have hinc : Incomp q s :=
    ((buildCode_pairwise (buildTree (freqOf text)) []).forall incomp_symm)
      hqmem hsmem hqs
  exact hinc.1 hq

/-! ## The encode/decode round trip -/

/-- Encoding any non-empty text succeeds, with the code table built from the
text itself, and decoding the resulting bitstring through the reversed table
recovers the text exactly, with no truncation warning. -/
theorem roundtrip_core (text : List Nat) (h : text ≠ []) :
    ∃ bits codes, huffmanEncode text = .ok (bits, codes) ∧
      huffmanDecode bits (revTable codes) = .ok (text, false) := by
  set codes := buildCode (buildTree (freqOf text)) [] with hcodes
  have hgood := builtCodes_good text h codes hcodes
  have hfound : ∀ c ∈ text, ∃ s, lookupCode codes c = some s := by
    intro c hc
    exact lookupCode_isSome_of_mem_keys codes c
      (hcodes ▸ builtCodes_mem_keys text h c hc)
  have hsnd : (encodeLoop text codes).2 = codes := encodeLoop_snd text codes hfound
  have hfst : (encodeLoop text codes).1 =
      text.flatMap (fun c => (lookupCode codes c).getD []) :=
    encodeLoop_fst text codes
  refine ⟨(encodeLoop text codes).1, codes, ?_, ?_⟩
  · simp only [huffmanEncode, if_neg h]
    rw [hsnd]
  · rw [hfst]
    have hconcat : decodeGo (revTable codes)
        (text.flatMap fun c => (lookupCode codes c).getD []) [] = (text, []) := by
      apply decodeGo_concat
      intro c hc
      exact hgood c hc
    have hbne : (text.flatMap fun c => (lookupCode codes c).getD []) ≠ [] := by
      match text, h, hgood with
      | c :: cs, _, hgood =>
        have h1 := (hgood c (by simp)).1
        rw [List.flatMap_cons]
        intro hcon
        exact h1 (List.append_eq_nil.mp hcon).1
    have hcne : codes ≠ [] := by
      match text, h with
      | c :: cs, h =>
        intro hcon
        have hk := builtCodes_mem_keys (c :: cs) h c (by simp)
        rw [← hcodes, hcon] at hk
        simp at hk
    have hrne : revTable codes ≠ [] := by
      intro hcon
      apply hcne
      simpa [revTable] using congrArg List.length hcon
    simp only [huffmanDecode, if_neg hbne, if_neg hrne, hconcat]
    simp

/-! ## The single-symbol special case -/

theorem foldl_bump_uniform (a : Nat) :
    ∀ (text : List Nat) (k : Nat), (∀ c ∈ text, c = a) →
      List.foldl bump [(a, k)] text = [(a, k + text.length)] := by
  intro text
  induction text with
  | nil => intro k _; simp
  | cons c cs ih =>
    intro k hall
    have hc : c = a := hall c (by simp)
    subst hc
    rw [List.foldl_cons]
    have hb : bump [(c, k)] c = [(c, k + 1)] := by simp [bump]
    rw [hb, ih (k + 1) fun d hd => hall d (by simp [hd])]
    simp only [List.length_cons]
    have harith : k + 1 + cs.length = k + (cs.length + 1) := by omega
    rw [harith]

theorem freqOf_uniform (a : Nat) (text : List Nat) (hne : text ≠ [])
    (hall : ∀ c ∈ text, c = a) :
    freqOf text = [(a, text.length)] := by
  match text, hne with
  | c :: cs, _ =>
    have hc : c = a := hall c (by simp)
    subst hc
    rw [freqOf, List.foldl_cons]
    have hb : bump [] c = [(c, 1)] := rfl
    rw [hb, foldl_bump_uniform c cs 1 fun d hd => hall d (by simp [hd])]
    simp only [List.length_cons]
    rw [Nat.add_comm]

theorem buildTree_single (a n : Nat) :
    buildTree [(a, n)] = HTree.node 0 n (HTree.node a n .nil .nil) .nil := rfl

theorem buildCode_single (a n : Nat) :
    buildCode (buildTree [(a, n)]) [] = [(a, [false])] := rfl

theorem uniform_flatMap_length (a : Nat) :
    ∀ (text : List Nat), (∀ c ∈ text, c = a) →
      (text.flatMap fun c => (lookupCode [(a, [false])] c).getD []).length
        = text.length := by
  intro text
  induction text with
  | nil => intro _; simp
  | cons c cs ih =>
    intro hall
    have hc : c = a := hall c (by simp)
    subst hc
    rw [List.flatMap_cons, List.length_append,
      ih fun d hd => hall d (by simp [hd])]
    simp [lookupCode]
    omega

/-! ## Claim theorems -/

/-- C1.  For every non-empty input text, encoding with the code table built
from that text and then decoding the bitstring with the reversed table
returns the original text exactly (and with no truncation warning). -/
theorem claim_roundtrip (text : List Nat) (h : text ≠ []) :
    ∃ bits codes, huffmanEncode text = .ok (bits, codes) ∧
      huffmanDecode bits (revTable codes) = .ok (text, false) :=
  roundtrip_core text h

/-- Witness for C1 at the concrete text "aba". -/
theorem claim_roundtrip_witness :
    ∃ bits codes, huffmanEncode [97, 98, 97] = .ok (bits, codes) ∧
      huffmanDecode bits (revTable codes) = .ok ([97, 98, 97], false) :=
  claim_roundtrip [97, 98, 97] (by decide)

/-- C3.  For every code table built from a non-empty frequency map, no code
string is a prefix of another code string of the same table. -/
theorem claim_prefix_free (freq : List (Nat × Nat)) (_h : freq ≠ []) :
    List.Pairwise Incomp ((buildCode (buildTree freq) []).map Prod.snd) :=
  buildCode_pairwise (buildTree freq) []

/-- Witness for C3 at the concrete frequency map {0 ↦ 1, 1 ↦ 2}. -/
theorem claim_prefix_free_witness :
    List.Pairwise Incomp ((buildCode (buildTree [(0, 1), (1, 2)]) []).map Prod.snd) :=
  claim_prefix_free [(0, 1), (1, 2)] (by decide)

/-- C5.  A text with exactly one distinct symbol yields the one-entry code
table `{a ↦ "0"}` (a non-empty code), and the encoded bitstring has one bit
per input symbol. -/
theorem claim_single_symbol (a : Nat) (text : List Nat) (hne : text ≠ [])
    (hall : ∀ c ∈ text, c = a) :
    ∃ bits codes, huffmanEncode text = .ok (bits, codes) ∧
      codes = [(a, [false])] ∧ bits.length = text.length := by
  have hfreq : freqOf text = [(a, text.length)] := freqOf_uniform a text hne hall
  have hcode : buildCode (buildTree (freqOf text)) [] = [(a, [false])] := by
    rw [hfreq, buildCode_single]
  have hfound : ∀ c ∈ text, ∃ s, lookupCode [(a, [false])] c = some s := by
    intro c hc
    have : c = a := hall c hc
    subst this
    exact ⟨[false], by simp [lookupCode]⟩
  refine ⟨(encodeLoop text [(a, [false])]).1, [(a, [false])], ?_, rfl, ?_⟩
  · simp only [huffmanEncode, if_neg hne, hcode]
    rw [encodeLoop_snd text _ hfound]
  · rw [encodeLoop_fst]
    exact uniform_flatMap_length a text hall

/-- Witness for C5 at the concrete text "aaaa". -/
theorem claim_single_symbol_witness :
    ∃ bits codes, huffmanEncode [97, 97, 97, 97] = .ok (bits, codes) ∧
      codes = [(97, [false])] ∧ bits.length = [97, 97, 97, 97].length :=
  claim_single_symbol 97 [97, 97, 97, 97] (by decide) (by decide)

/-- C6.  When the decode loop runs (a code table was supplied) and a
non-empty candidate is left dangling at the end, decoding does not fail: it
returns the symbols decoded so far together with the truncation flag. -/
theorem claim_truncated_decode (bits : List Bool)
    (revCodes : List (List Bool × Nat)) (hR : revCodes ≠ [])
    (hdang : (decodeGo revCodes bits []).2 ≠ []) :
    huffmanDecode bits revCodes = .ok ((decodeGo revCodes bits []).1, true) := by
  have hbits : bits ≠ [] := by
    intro hcon
    subst hcon
    exact hdang rfl
  have hflag : (decodeGo revCodes bits []).2.isEmpty = false := by
    cases hdg : (decodeGo revCodes bits []).2 with
    | nil => exact absurd hdg hdang
    | cons x xs => rfl
  simp only [huffmanDecode, if_neg hbits, if_neg hR, hflag]
  rfl

/-- Witness for C6: codes {a ↦ "0", b ↦ "10"}, bitstring "01" decodes to
"a" with the dangling fragment "1" and the truncation flag set. -/
theorem claim_truncated_decode_witness :
    huffmanDecode [false, true] [([false], 97), ([true, false], 98)] =
      .ok ((decodeGo [([false], 97), ([true, false], 98)] [false, true] []).1, true) :=
  claim_truncated_decode [false, true] [([false], 97), ([true, false], 98)]
    (by decide) (by decide)

/-- C7 counterexample.  Encoding a text containing a symbol with no table
entry does not fail: the C++ `operator[]` inserts the empty code, the symbol
contributes no bits, and a bitstring is produced. -/
theorem claim_unknown_symbol_cex :
    encodeLoop [0, 1] [(0, [false])] = ([false], [(0, [false]), (1, [])]) := rfl

/-- C7 amended.  The encode loop never fails: each symbol contributes its
code, and a symbol with no entry contributes the empty bitstring. -/
theorem claim_unknown_symbol_amended (text : List Nat)
    (codes : List (Nat × List Bool)) :
    (encodeLoop text codes).1 =
      text.flatMap fun c => (lookupCode codes c).getD [] :=
  encodeLoop_fst text codes

/-- C8.  Empty input is rejected with the empty-input error before any tree
or code table is built, and the frequency map is empty exactly for the empty
text (so a tree build from an empty frequency map can only arise from the
rejected empty text). -/
theorem claim_empty_input :
    huffmanEncode [] = .error .emptyInput ∧
      ∀ text : List Nat, (freqOf text = [] ↔ text = []) := by
  refine ⟨rfl, ?_⟩
  intro text
  constructor
  · intro hcon
    by_contra hne
    exact freqOf_ne_nil text hne hcon
  · intro h
    subst h
    rfl

/-- Witness for C8 at the concrete text "a". -/
theorem claim_empty_input_witness :
    freqOf [97] = [] ↔ ([97] : List Nat) = [] :=
  claim_empty_input.2 [97]

/-- C9 counterexample.  With an empty bitstring and no code table, decoding
fails with the empty-bits error, not the missing-code-table error. -/
theorem claim_missing_table_cex :
    huffmanDecode [] [] = .error .emptyBits ∧
      CodecError.emptyBits ≠ CodecError.missingCodeTable :=
  ⟨rfl, by decide⟩

/-- C9 amended.  For every non-empty bitstring, decoding with an absent or
empty reverse code table fails with the missing-code-table error (and
produces no text). -/
theorem claim_missing_table (bits : List Bool) (h : bits ≠ []) :
    huffmanDecode bits [] = .error .missingCodeTable := by
  simp [huffmanDecode, h]

/-- Witness for C9's amended claim at the one-bit bitstring "1". -/
theorem claim_missing_table_witness :
    huffmanDecode [true] [] = .error .missingCodeTable :=
  claim_missing_table [true] (by decide)

/-- C10.  The empty bitstring is rejected with a fatal error before the code
table is consulted: the same error results whatever table is supplied. -/
theorem claim_empty_bits (revCodes : List (List Bool × Nat)) :
    huffmanDecode [] revCodes = .error .emptyBits := rfl

/-- Witness for C10 at a concrete one-entry table. -/
theorem claim_empty_bits_witness :
    huffmanDecode [] [([true], 5)] = .error .emptyBits :=
  claim_empty_bits [([true], 5)]

/-! ## BitChannel lemmas -/

theorem lsb_setLSB (v : Nat) (b : Bool) : lsb (setLSB v b) = b := by
  cases b <;> simp [setLSB, lsb] <;> omega

theorem writeBits_length :
    ∀ (ps : List Pixel) (bs : List Bool), (writeBits ps bs).length = ps.length := by
  intro ps
  induction ps with
  | nil => intro bs; cases bs <;> rfl
  | cons p ps ih =>
    intro bs
    match bs with
    | [] => rfl
    | [b1] => simp [writeBits]
    | [b1, b2] => simp [writeBits]
    | b1 :: b2 :: b3 :: rest => simp [writeBits, ih]

theorem channelBits_length (ps : List Pixel) :
    (channelBits ps).length = 3 * ps.length := by
  induction ps with
  | nil => rfl
  | cons p rest ih =>
    simp [channelBits] at ih ⊢
    omega

theorem channelBits_cons (p : Pixel) (ps : List Pixel) :
    channelBits (p :: ps) =
      lsb p.1 :: lsb p.2.1 :: lsb p.2.2 :: channelBits ps := rfl

/-- The LSB stream of a buffer after writing `bs` starts with `bs` and
continues with the old LSBs of the untouched slots. -/
theorem channelBits_writeBits :
    ∀ (ps : List Pixel) (bs : List Bool), bs.length ≤ 3 * ps.length →
      channelBits (writeBits ps bs) = bs ++ (channelBits ps).drop bs.length := by
  intro ps
  induction ps with
  | nil =>
    intro bs h
    simp at h
    subst h
    rfl
  | cons p ps ih =>
    intro bs h
    match bs with
    | [] => simp [writeBits]
    | [b1] => simp [writeBits, channelBits, lsb_setLSB]
    | [b1, b2] => simp [writeBits, channelBits, lsb_setLSB]
    | b1 :: b2 :: b3 :: rest =>
      have hlen : rest.length ≤ 3 * ps.length := by
        simp only [List.length_cons] at h
        omega
      simp only [writeBits, channelBits_cons, lsb_setLSB, ih rest hlen,
        List.length_cons, List.drop_succ_cons, List.cons_append]

theorem natToBits_length : ∀ (w n : Nat), (natToBits w n).length = w := by
  intro w
  induction w with
  | zero => intro n; rfl
  | succ w ih => intro n; simp [natToBits, ih]

theorem bitsToNat_append_bit (xs : List Bool) (b : Bool) :
    bitsToNat (xs ++ [b]) = 2 * bitsToNat xs + (if b then 1 else 0) := by
  simp [bitsToNat, List.foldl_append]

/-- Reading back a `w`-bit big-endian header recovers the value modulo
`2 ^ w`. -/
theorem bitsToNat_natToBits : ∀ (w n : Nat), bitsToNat (natToBits w n) = n % 2 ^ w := by
  intro w
  induction w with
  | zero => intro n; simp [natToBits, bitsToNat, Nat.mod_one]
  | succ w ih =>
    intro n
    rw [natToBits, bitsToNat_append_bit, ih]
    have hparity : (if decide (n % 2 = 1) = true then 1 else 0) = n % 2 := by
      rcases Nat.mod_two_eq_zero_or_one n with h | h <;> simp [h]
    rw [hparity]
    have hpow : 2 ^ (w + 1) = 2 * 2 ^ w := by
      rw [Nat.pow_succ, Nat.mul_comm]
    rw [hpow, Nat.mod_mul]
    omega

theorem embed_ok (buf : List Pixel) (bits : List Bool)
    (h : ¬ (3 * buf.length < 24 + bits.length)) :
    embed buf bits = .ok (writeBits buf (natToBits 24 bits.length ++ bits)) := by
  unfold embed
  rw [if_neg h]

theorem embed_err (buf : List Pixel) (bits : List Bool)
    (h : 3 * buf.length < 24 + bits.length) :
    embed buf bits = .error .capacity := by
  unfold embed
  rw [if_pos h]

/-- Extraction after a successful embedding returns the first
`payloadLength mod 2^24` payload bits: the 24-bit header wraps around at
`2^24`. -/
theorem extract_writeBits (buf : List Pixel) (bits : List Bool)
    (hcap : 24 + bits.length ≤ 3 * buf.length) :
    extract (writeBits buf (natToBits 24 bits.length ++ bits)) =
      .ok (bits.take (bits.length % 2 ^ 24)) := by
  have hhl : (natToBits 24 bits.length).length = 24 := natToBits_length 24 _
  have hwl : (natToBits 24 bits.length ++ bits).length ≤ 3 * buf.length := by
    rw [List.length_append, hhl]
    omega
  have hcb := channelBits_writeBits buf (natToBits 24 bits.length ++ bits) hwl
  have htake :
      ((natToBits 24 bits.length ++ bits) ++
        (channelBits buf).drop (natToBits 24 bits.length ++ bits).length).take 24
        = natToBits 24 bits.length := by
    rw [List.append_assoc]
    exact List.take_left' hhl
  have hdrop :
      ((natToBits 24 bits.length ++ bits) ++
        (channelBits buf).drop (natToBits 24 bits.length ++ bits).length).drop 24
        = bits ++ (channelBits buf).drop (natToBits 24 bits.length ++ bits).length := by
    rw [List.append_assoc]
    exact List.drop_left' hhl
  have hlenall :
      ((natToBits 24 bits.length ++ bits) ++
        (channelBits buf).drop (natToBits 24 bits.length ++ bits).length).length
        = 3 * buf.length := by
    simp only [List.length_append, List.length_drop, channelBits_length, hhl]
    omega
  have hmodle : bits.length % 2 ^ 24 ≤ bits.length := Nat.mod_le _ _
  simp only [extract, hcb, htake, hdrop, hlenall, bitsToNat_natToBits]
  rw [if_neg (by omega)]
  rw [List.take_append_eq_append_take]
  have hz : bits.length % 2 ^ 24 - bits.length = 0 := by omega
  rw [hz, List.take_zero, List.append_nil]

/-! ## BitChannel claims -/

/-- C2 amended.  For every buffer and every bitstring that fits the buffer
(24 header bits + payload ≤ 3 × pixelCount) *and* whose length is
representable in the 24-bit header (< 2^24), extracting after embedding
returns exactly the payload.  This covers the listed lengths 0, 1, 23, 24
and 1,000,000. -/
theorem claim_header_roundtrip (buf : List Pixel) (bits : List Bool)
    (hcap : 24 + bits.length ≤ 3 * buf.length)
    (hsize : bits.length < 2 ^ 24) :
    ∃ buf', embed buf bits = .ok buf' ∧ extract buf' = .ok bits := by
  have hnot : ¬ (3 * buf.length < 24 + bits.length) := by omega
  refine ⟨writeBits buf (natToBits 24 bits.length ++ bits), ?_, ?_⟩
  · simp [embed, hnot]
  · have hhl : (natToBits 24 bits.length).length = 24 := natToBits_length 24 _
    have hwl : (natToBits 24 bits.length ++ bits).length ≤ 3 * buf.length := by
      simp only [List.length_append, hhl]
      omega
    have hcb : channelBits (writeBits buf (natToBits 24 bits.length ++ bits)) =
        (natToBits 24 bits.length ++ bits) ++
          (channelBits buf).drop (natToBits 24 bits.length ++ bits).length :=
      channelBits_writeBits buf _ hwl
    have hlenall :
        ((natToBits 24 bits.length ++ bits) ++
          (channelBits buf).drop (natToBits 24 bits.length ++ bits).length).length
          = 3 * buf.length := by
      simp only [List.length_append, List.length_drop, channelBits_length, hhl]
      omega
    have htake :
        ((natToBits 24 bits.length ++ bits) ++
          (channelBits buf).drop (natToBits 24 bits.length ++ bits).length).take 24
          = natToBits 24 bits.length := by
      rw [List.append_assoc]
      exact List.take_left' hhl
    have hdrop :
        ((natToBits 24 bits.length ++ bits) ++
          (channelBits buf).drop (natToBits 24 bits.length ++ bits).length).drop 24
          = bits ++ (channelBits buf).drop (natToBits 24 bits.length ++ bits).length := by
      rw [List.append_assoc]
      exact List.drop_left' hhl
    simp only [extract, hcb, htake, hdrop, hlenall, bitsToNat_natToBits,
      Nat.mod_eq_of_lt hsize]
    rw [if_neg (by omega)]
    rw [List.take_left]

/-- Witness for C2's amended claim: the empty payload in an 8-pixel
(24-slot) buffer. -/
theorem claim_header_roundtrip_witness :
    ∃ buf', embed (List.replicate 8 ((0, 0, 0) : Pixel)) [] = .ok buf' ∧
      extract buf' = .ok [] :=
  claim_header_roundtrip (List.replicate 8 ((0, 0, 0) : Pixel)) []
    (by simp) (by norm_num)

/-- C2 counterexample.  A payload of exactly 2^24 bits fits a large enough
buffer, and `embed` accepts it, but the 24-bit header wraps to zero, so
`extract` returns the empty bitstring instead of the payload: the round trip
fails without the `< 2^24` bound. -/
theorem claim_header_roundtrip_cex :
    24 + (List.replicate (2 ^ 24) true).length ≤
        3 * (List.replicate 5592414 ((0, 0, 0) : Pixel)).length ∧
    embed (List.replicate 5592414 ((0, 0, 0) : Pixel)) (List.replicate (2 ^ 24) true) =
      .ok (writeBits (List.replicate 5592414 ((0, 0, 0) : Pixel))
        (natToBits 24 (2 ^ 24) ++ List.replicate (2 ^ 24) true)) ∧
    extract (writeBits (List.replicate 5592414 ((0, 0, 0) : Pixel))
        (natToBits 24 (2 ^ 24) ++ List.replicate (2 ^ 24) true)) = .ok [] ∧
    ([] : List Bool) ≠ List.replicate (2 ^ 24) true := by
  have hbl : (List.replicate (2 ^ 24) true).length = 2 ^ 24 :=
    List.length_replicate ..
  have hpl : (List.replicate 5592414 ((0, 0, 0) : Pixel)).length = 5592414 :=
    List.length_replicate ..
  have hcap : 24 + (List.replicate (2 ^ 24) true).length ≤
      3 * (List.replicate 5592414 ((0, 0, 0) : Pixel)).length := by
    rw [hbl, hpl]
    norm_num
  refine ⟨hcap, ?_, ?_, ?_⟩
  · have he := embed_ok (List.replicate 5592414 ((0, 0, 0) : Pixel))
      (List.replicate (2 ^ 24) true) (by rw [hbl, hpl]; norm_num)
    rw [hbl] at he
    exact he
  · have he := extract_writeBits (List.replicate 5592414 ((0, 0, 0) : Pixel))
      (List.replicate (2 ^ 24) true) (by rw [hbl, hpl]; norm_num)
    rw [hbl, Nat.mod_self, List.take_zero] at he
    exact he
  · intro hcon
    have hlen := congrArg List.length hcon
    rw [hbl] at hlen
    have h0 : (0 : Nat) = 2 ^ 24 := hlen
    norm_num at h0

/-- C4 counterexample.  For payload length L = 1 the buffer with exactly
⌈(24+1)/3⌉ = 9 pixels has 27 LSB slots, so embedding a bitstring of length
L + 1 = 2 needs only 26 slots and succeeds — it does not fail with the
capacity error. -/
theorem claim_capacity_cex :
    (List.replicate 9 ((0, 0, 0) : Pixel)).length = (24 + 1 + 2) / 3 ∧
    embed (List.replicate 9 ((0, 0, 0) : Pixel)) [true, true] =
      .ok (writeBits (List.replicate 9 ((0, 0, 0) : Pixel))
        (natToBits 24 2 ++ [true, true])) := by
  exact ⟨rfl, rfl⟩

/-- C4 amended.  `embed` fails with the capacity error exactly when
24 + payload length exceeds the 3-slots-per-pixel capacity; embedding length
L into a buffer of exactly ⌈(24+L)/3⌉ pixels succeeds; embedding length
L + 1 into that same buffer fails with the capacity error exactly when
3 ∣ L (only then is the buffer exactly full).  In this pure model an
embedding that fails returns no buffer at all, so no pixel is modified. -/
theorem claim_capacity_boundary (buf : List Pixel) (bits : List Bool) :
    (embed buf bits = .error .capacity ↔ 3 * buf.length < 24 + bits.length) ∧
    (buf.length = (24 + bits.length + 2) / 3 →
      (∃ buf', embed buf bits = .ok buf') ∧
      ∀ bits' : List Bool, bits'.length = bits.length + 1 →
        (embed buf bits' = .error .capacity ↔ 3 ∣ bits.length)) := by
  constructor
  · constructor
    · intro h
      by_contra hc
      rw [embed_ok buf bits hc] at h
      simp at h
    · intro h
      exact embed_err buf bits h
  · intro hlen
    constructor
    · refine ⟨_, embed_ok buf bits ?_⟩
      omega
    · intro bits' hlen'
      constructor
      · intro h
        by_cases hc : 3 * buf.length < 24 + bits'.length
        · omega
        · rw [embed_ok buf bits' hc] at h
          simp at h
      · intro hdvd
        apply embed_err
        omega

/-- Witness for C4's amended claim at an 8-pixel buffer and empty payload. -/
theorem claim_capacity_boundary_witness :
    embed (List.replicate 8 ((0, 0, 0) : Pixel)) [] = .error .capacity ↔
      3 * (List.replicate 8 ((0, 0, 0) : Pixel)).length < 24 + ([] : List Bool).length :=
  (claim_capacity_boundary (List.replicate 8 ((0, 0, 0) : Pixel)) []).1

/-- Witness for C7's amended claim at a one-symbol text and empty table. -/
theorem claim_unknown_symbol_witness :
    (encodeLoop [5] []).1 = [5].flatMap fun c => (lookupCode [] c).getD [] :=
  claim_unknown_symbol_amended [5] []
